import Mathlib

/-!
Verification development for the Atlas repository's single script
`check_file_sizes.py`, a directory-tree line-counting utility.

The script is shallowly embedded here.  Paths, patterns and file contents
are modelled as `List Char` (Python `str`); filesystem reads are modelled
by passing the decoded text (or `none` for an unreadable/absent file)
explicitly.  The embedding targets POSIX behaviour of the Python standard
library: `os.path.normcase` is the identity, `os.path.basename` splits on
the forward slash, and `fnmatch.fnmatch` matches case-sensitively.
-/

namespace Atlas

/-! ### Glob matching (model of `fnmatch.fnmatch`)

Python's `fnmatch.translate` turns a pattern into an anchored regex:
`*` matches any character sequence (including separators), `?` any single
character, and `[...]` a character class (leading `!` negates; a `]`
directly after the opening `[`/`[!` is a literal member; `a-z` denotes a
code-point range; a `[` with no closing `]` is a literal `[`).  Every
other character matches itself literally. -/

/-- Scan a character-class body for its closing `]`: returns the body and
the remainder of the pattern after the `]`, or `none` when unclosed. -/
def scanClose : List Char → Option (List Char × List Char)
  | [] => none
  | c :: rest =>
    if c = ']' then some ([], rest)
    else
      match scanClose rest with
      | none => none
      | some (body, r) => some (c :: body, r)

/-- Scan for the class body after the optional negation marker: a `]`
placed directly at the start counts as a literal member of the class
(per `fnmatch.translate`), then the body runs to the next `]`. -/
def classBodyScan (l : List Char) : Option (List Char × List Char) :=
  match l with
  | [] => none
  | d :: rest2 =>
    if d = ']' then
      match scanClose rest2 with
      | none => none
      | some (body, r) => some (']' :: body, r)
    else scanClose l

/-- Split the pattern text following a `[` into the negation flag, the
class body and the rest of the pattern, per `fnmatch.translate`: an
optional leading `!` negates, and a `]` immediately after counts as a
literal member of the class. -/
def classSplit (l : List Char) : Option (Bool × List Char × List Char) :=
  match l with
  | [] => none
  | c :: rest =>
    if c = '!' then
      match classBodyScan rest with
      | none => none
      | some (body, r) => some (true, body, r)
    else
      match classBodyScan l with
      | none => none
      | some (body, r) => some (false, body, r)

/-- Membership of a character in a class body; `a-z` is a code-point
range, a `-` that does not sit between two characters is literal. -/
def matchClassBody : List Char → Char → Bool
  | [], _ => false
  | lo :: '-' :: hi :: rest, c =>
    (decide (lo ≤ c) && decide (c ≤ hi)) || matchClassBody rest c
  | x :: rest, c => x == c || matchClassBody rest c

/-- Fueled glob matcher: `globMatchF fuel pattern text` decides whether
`text` matches `pattern` in full.  Every recursive call strictly decreases
`pattern.length + text.length`, so fuel above that sum makes the result
fuel-independent; the wrapper `fnmatchL` supplies such fuel. -/
def globMatchF : Nat → List Char → List Char → Bool
  | 0, _, _ => false
  | _ + 1, [], s => s.isEmpty
  | f + 1, c :: ps, s =>
    if c = '*' then
      globMatchF f ps s ||
        (match s with
         | [] => false
         | _ :: rest => globMatchF f (c :: ps) rest)
    else if c = '?' then
      match s with
      | [] => false
      | _ :: rest => globMatchF f ps rest
    else if c = '[' then
      match classSplit ps with
      | some (neg, body, rest) =>
        (match s with
         | [] => false
         | d :: srest =>
           (if neg then !(matchClassBody body d) else matchClassBody body d) &&
             globMatchF f rest srest)
      | none =>
        match s with
        | [] => false
        | d :: srest => d == '[' && globMatchF f ps srest
    else
      match s with
      | [] => false
      | d :: srest => d == c && globMatchF f ps srest

/-- Model of `fnmatch.fnmatch(name, pattern)` on POSIX (where
`os.path.normcase` is the identity). -/
def fnmatchL (name pattern : List Char) : Bool :=
  globMatchF (pattern.length + name.length + 1) pattern name

/-! ### Path helpers -/

/-- Model of `str.replace('\\', '/')`: separator normalization. -/
def normalize (s : List Char) : List Char :=
  s.map fun c => if c = '\\' then '/' else c

/-- Model of POSIX `os.path.basename`: the part after the last slash. -/
def basename (s : List Char) : List Char :=
  (s.reverse.takeWhile (fun c => c ≠ '/')).reverse

/-! ### Matcher (`should_ignore`) -/

/-- Model of `should_ignore(file_path, ignore_patterns)`: normalize the
separators of the path, then for each pattern test, in order: directory
patterns (ending with a slash) against `file_path + '/'` as `*/pattern`
or `pattern`; otherwise the path or its basename against the pattern;
otherwise, for patterns containing a slash, the path against
`*/pattern`.  Any hit ignores the path. -/
def should_ignore (file_path : List Char) (ignore_patterns : List (List Char)) : Bool :=
  let fp := normalize file_path
  ignore_patterns.any fun pattern =>
    if pattern.getLast? = some '/' then
      fnmatchL (fp ++ ['/']) ('*' :: '/' :: pattern) || fnmatchL (fp ++ ['/']) pattern
    else if fnmatchL fp pattern || fnmatchL (basename fp) pattern then
      true
    else
      pattern.contains '/' && fnmatchL fp ('*' :: '/' :: pattern)

/-! ### Line counting (model of `count_lines`) -/

/-- Accumulator pass behind `fileLines`: text-mode line iteration.  A
line is a maximal chunk up to a newline or up to end of file; an empty
chunk at end of file is not a line.  Line text is recorded without its
terminator (the callers strip whitespace or merely count). -/
def fileLinesAux (acc : List Char) : List Char → List (List Char)
  | [] => if acc.isEmpty then [] else [acc.reverse]
  | c :: rest =>
    if c = '\n' then acc.reverse :: fileLinesAux [] rest
    else fileLinesAux (c :: acc) rest

/-- Lines of a decoded text, as Python's `for line in f` iterates them. -/
def fileLines (content : List Char) : List (List Char) :=
  fileLinesAux [] content

/-- Model of `count_lines(file_path)`: `sum(1 for _ in f)` counts the
iterated lines; any `OSError`/decode failure (including a nonexistent
path, modelled as `none`) yields 0 instead of propagating. -/
def count_lines : Option (List Char) → Nat
  | none => 0
  | some content => (fileLines content).length

/-! ### Text-file detection (model of `is_text_file`) -/

/-- The fixed allow-list `text_extensions` from the script, verbatim. -/
def text_extensions : List (List Char) :=
  [".py".data, ".js".data, ".html".data, ".css".data, ".cpp".data, ".c".data,
   ".h".data, ".java".data, ".rb".data, ".php".data,
   ".go".data, ".rs".data, ".swift".data, ".kt".data, ".ts".data, ".jsx".data,
   ".tsx".data, ".vue".data, ".scss".data,
   ".sass".data, ".less".data, ".sql".data, ".sh".data, ".bash".data,
   ".zsh".data, ".fish".data, ".ps1".data, ".bat".data,
   ".cmd".data, ".xml".data, ".json".data, ".yaml".data, ".yml".data,
   ".toml".data, ".ini".data, ".cfg".data, ".conf".data,
   ".txt".data, ".md".data, ".rst".data, ".tex".data, ".r".data, ".R".data,
   ".m".data, ".pl".data, ".lua".data, ".vim".data,
   ".cs".data, ".vb".data, ".fs".data, ".scala".data, ".clj".data, ".hs".data,
   ".elm".data, ".dart".data, ".jl".data]

/-- Model of `pathlib.PurePath.suffix` on a file name: the part from the
last dot on, provided that dot is neither the first nor the last
character of the name; otherwise empty. -/
def pathSuffix (name : List Char) : List Char :=
  let rev := name.reverse
  let after := rev.takeWhile (fun c => c ≠ '.')
  match rev.drop after.length with
  | '.' :: stem => if after.isEmpty || stem.isEmpty then [] else '.' :: after.reverse
  | _ => []

/-- Character-wise lower-casing (Python `str.lower` restricted to ASCII,
which covers every extension in the allow-list). -/
def lowerL (s : List Char) : List Char :=
  s.map Char.toLower

/-- Model of `is_text_file(file_path)`: membership of the lower-cased
`Path(file_path).suffix` in the fixed allow-list. -/
def is_text_file (file_path : List Char) : Bool :=
  lowerL (pathSuffix (basename file_path)) ∈ text_extensions

/-! ### Classifier (model of `categorize_file`) -/

/-- Model of `str.startswith` on character lists. -/
def startsWithL : List Char → List Char → Bool
  | [], _ => true
  | _ :: _, [] => false
  | c :: p, d :: l => c == d && startsWithL p l

/-- Model of Python's substring test `sub in s`. -/
def containsSubL (sub : List Char) : List Char → Bool
  | [] => startsWithL sub []
  | c :: t => startsWithL sub (c :: t) || containsSubL sub t

/-- Model of `categorize_file(file_path)`: normalize separators, lower
case, then bucket on the `client`/`server` path markers. -/
def categorize_file (file_path : List Char) : String :=
  let normalized_path := lowerL (normalize file_path)
  if containsSubL "/client/".data normalized_path ||
      startsWithL "client/".data normalized_path then "client"
  else if containsSubL "/server/".data normalized_path ||
      startsWithL "server/".data normalized_path then "server"
  else "other"

/-! ### PatternStore (model of `parse_gitignore` and the fixed patterns) -/

/-- ASCII whitespace recognised by `str.strip`. -/
def isSpaceChar (c : Char) : Bool :=
  c == ' ' || c == '\t' || c == '\n' || c == '\r' || c == '\x0b' || c == '\x0c'

/-- Model of `str.strip()`. -/
def stripL (s : List Char) : List Char :=
  ((s.dropWhile isSpaceChar).reverse.dropWhile isSpaceChar).reverse

/-- Model of `parse_gitignore(gitignore_path)`: `none` models an absent
file (`os.path.exists` false) and yields no patterns; otherwise each
line is stripped, and blank lines and `#` comment lines are skipped. -/
def parse_gitignore : Option (List Char) → List (List Char)
  | none => []
  | some content =>
    ((fileLines content).map stripL).filter fun line =>
      decide (line ≠ []) && decide (line.head? ≠ some '#')

/-- The eight fixed housekeeping patterns `main` appends unconditionally. -/
def fixedPatterns : List (List Char) :=
  [".git/".data, "__pycache__/".data, "*.pyc".data, ".DS_Store".data,
   "node_modules/".data, ".vscode/".data, ".idea/".data, "*.log".data]

/-- The full pattern list used by `main`: user patterns from the ignore
file, then the fixed patterns. -/
def mainPatterns (gitignore : Option (List Char)) : List (List Char) :=
  parse_gitignore gitignore ++ fixedPatterns

/-! ### Walker (model of the `os.walk` loop in `main`) -/

/-- A directory tree: named subdirectories and named files.  A file's
payload is its decoded text, or `none` when opening/decoding it fails. -/
inductive FSTree where
  | mk (dirs : List (List Char × FSTree)) (files : List (List Char × Option (List Char))) : FSTree

/-- The three accumulating sequences of `(relative path, line count)`
records: client, server and other. -/
structure Triple where
  client : List (List Char × Nat)
  server : List (List Char × Nat)
  other : List (List Char × Nat)
deriving DecidableEq

/-- Concatenation of result triples, category-wise and order-preserving. -/
def mergeT (a b : Triple) : Triple :=
  ⟨a.client ++ b.client, a.server ++ b.server, a.other ++ b.other⟩

/-- Model of `os.path.relpath(os.path.join(root, name), root_dir)` along
the walk: the empty base denotes the walk root `.`. -/
def joinRel (base name : List Char) : List Char :=
  if base.isEmpty then name else base ++ '/' :: name

/-- Per-directory file loop of `main`: for each file, skip it when
`should_ignore` fires on its relative path or `is_text_file` rejects
`os.path.join(root, file)` (which carries a leading `./`); otherwise
count lines, and record the file under its category only when the count
is positive. -/
def processFiles (pats : List (List Char)) (base : List Char) :
    List (List Char × Option (List Char)) → Triple
  | [] => ⟨[], [], []⟩
  | (name, content) :: rest =>
    let rel_path := joinRel base name
    let file_path := '.' :: '/' :: rel_path
    let acc := processFiles pats base rest
    if should_ignore rel_path pats || !(is_text_file file_path) then acc
    else
      let line_count := count_lines content
      if line_count > 0 then
        if categorize_file rel_path = "client" then
          ⟨(rel_path, line_count) :: acc.client, acc.server, acc.other⟩
        else if categorize_file rel_path = "server" then
          ⟨acc.client, (rel_path, line_count) :: acc.server, acc.other⟩
        else
          ⟨acc.client, acc.server, (rel_path, line_count) :: acc.other⟩
      else acc

/-- Fueled walk: at each directory, first handle the directory's files,
then filter the subdirectory list through `should_ignore` (the in-place
`dirs[:] = ...` pruning) and descend only into the kept subdirectories,
in order.  Fuel bounds the nesting depth only; `walkRoot` supplies fuel
exceeding any depth present in the tree. -/
def walkF (pats : List (List Char)) : Nat → List Char → FSTree → Triple
  | 0, _, _ => ⟨[], [], []⟩
  | fuel + 1, base, .mk dirs files =>
    let kept := dirs.filter fun d => !(should_ignore (joinRel base d.1) pats)
    mergeT (processFiles pats base files)
      (kept.foldr (fun d acc => mergeT (walkF pats fuel (joinRel base d.1) d.2) acc)
        ⟨[], [], []⟩)

mutual
/-- Node count of a tree; it strictly exceeds the nesting depth. -/
def sizeT : FSTree → Nat
  | .mk dirs _ => sizeTL dirs + 1
/-- Node count of a subdirectory list. -/
def sizeTL : List (List Char × FSTree) → Nat
  | [] => 0
  | (_, t) :: rest => sizeT t + sizeTL rest + 1
end

/-- The whole walk from the root `.`; `sizeT t` strictly exceeds the
nesting depth of `t`, so the fuel never runs out. -/
def walkRoot (pats : List (List Char)) (t : FSTree) : Triple :=
  walkF pats (sizeT t) [] t

/-- Membership of a record in any of the three category sequences. -/
def memT (p : List Char) (n : Nat) (t : Triple) : Prop :=
  (p, n) ∈ t.client ∨ (p, n) ∈ t.server ∨ (p, n) ∈ t.other

instance (p : List Char) (n : Nat) (t : Triple) : Decidable (memT p n t) := by
  unfold memT; infer_instance

/-! ### Reporter (model of the sorting and summary in `main`) -/

/-- Stable descending insertion on the line-count component: the new
record goes after every earlier record with a strictly larger count and
before the first record whose count does not exceed it. -/
def insertDesc (x : List Char × Nat) : List (List Char × Nat) → List (List Char × Nat)
  | [] => [x]
  | y :: ys => if x.2 < y.2 then y :: insertDesc x ys else x :: y :: ys

/-- Model of `list.sort(key=lambda x: x[1], reverse=True)`: a stable
sort, descending on the line count, preserving encounter order among
equal counts. -/
def sortDesc : List (List Char × Nat) → List (List Char × Nat)
  | [] => []
  | x :: xs => insertDesc x (sortDesc xs)

/-- Line-count sum of a record list (`sum(count for _, count in ...)`). -/
def sumCounts (l : List (List Char × Nat)) : Nat :=
  (l.map Prod.snd).sum

/-- The observable content of the printed report: the three sorted
tables with their per-category file counts and line sums, and the
overall summary totals. -/
structure Report where
  clientFiles : List (List Char × Nat)
  serverFiles : List (List Char × Nat)
  otherFiles : List (List Char × Nat)
  clientCount : Nat
  serverCount : Nat
  otherCount : Nat
  clientLines : Nat
  serverLines : Nat
  otherLines : Nat
  totalFiles : Nat
  totalLines : Nat
deriving DecidableEq

/-- Model of `main()`: parse the ignore file, append the fixed patterns,
walk the tree, sort each category descending by line count, and report
the tables and totals. -/
def runMain (gitignore : Option (List Char)) (t : FSTree) : Report :=
  let pats := mainPatterns gitignore
  let w := walkRoot pats t
  let c := sortDesc w.client
  let s := sortDesc w.server
  let o := sortDesc w.other
  { clientFiles := c, serverFiles := s, otherFiles := o,
    clientCount := c.length, serverCount := s.length, otherCount := o.length,
    clientLines := sumCounts c, serverLines := sumCounts s, otherLines := sumCounts o,
    totalFiles := c.length + s.length + o.length,
    totalLines := sumCounts c + sumCounts s + sumCounts o }

/-- The concrete tree of the end-to-end scenario: `client/app.ts` with 10
lines, `server/main.go` with 20 lines and `README.md` with 5 lines (each
file is a run of newline-terminated lines). -/
def tree3 : FSTree :=
  .mk [("client".data, .mk [] [("app.ts".data, some (List.replicate 10 '\n'))]),
       ("server".data, .mk [] [("main.go".data, some (List.replicate 20 '\n'))])]
      [("README.md".data, some (List.replicate 5 '\n'))]

end Atlas


namespace Atlas

/-! ### Supporting lemmas -/

/-- A text without newlines iterates as the single line formed by the
pending accumulator followed by the text. -/
theorem fileLinesAux_no_newline (c : List Char) (acc : List Char)
    (hn : '\n' ∉ c) (hne : c ≠ []) : fileLinesAux acc c = [acc.reverse ++ c] := by
  induction c generalizing acc with
  | nil => exact absurd rfl hne
  | cons ch rest ih =>
    have hch : ch ≠ '\n' := fun h => hn (h ▸ List.mem_cons_self ch rest)
    have hrest : '\n' ∉ rest := fun h => hn (List.mem_cons_of_mem ch h)
    rw [fileLinesAux, if_neg hch]
    rcases eq_or_ne rest [] with hr | hrne
    · subst hr
      simp [fileLinesAux]
    · rw [ih (ch :: acc) hrest hrne]
      simp

/-- A successful class scan consumed the body and a closing bracket. -/
theorem scanClose_eq (l body r : List Char) (h : scanClose l = some (body, r)) :
    l = body ++ ']' :: r := by
  induction l generalizing body with
  | nil => simp [scanClose] at h
  | cons c rest ih =>
    rw [scanClose] at h
    by_cases hc : c = ']'
    · rw [if_pos hc] at h
      obtain ⟨rfl, rfl⟩ := by simpa using h
      simp [hc]
    · rw [if_neg hc] at h
      cases hs : scanClose rest with
      | none => rw [hs] at h; simp at h
      | some p =>
        rw [hs] at h
        obtain ⟨rfl, rfl⟩ : c :: p.1 = body ∧ p.2 = r := by
          simpa using h
        simpa using ih p.1 hs

/-- A successful body scan consumed the body and a closing bracket. -/
theorem classBodyScan_eq (l body r : List Char)
    (h : classBodyScan l = some (body, r)) : ∃ pre, l = pre ++ ']' :: r := by
  cases l with
  | nil => simp [classBodyScan] at h
  | cons d rest2 =>
    simp only [classBodyScan] at h
    by_cases hd : d = ']'
    · rw [if_pos hd] at h
      cases hs : scanClose rest2 with
      | none => rw [hs] at h; simp at h
      | some p =>
        rw [hs] at h
        obtain ⟨-, rfl⟩ : ']' :: p.1 = body ∧ p.2 = r := by simpa using h
        exact ⟨d :: p.1, by simp [scanClose_eq rest2 p.1 p.2 hs, hd]⟩
    · rw [if_neg hd] at h
      exact ⟨body, scanClose_eq _ body r h⟩

/-- A successful class split consumed through a closing bracket: the rest
of the pattern is separated from the class by a literal `]`. -/
theorem classSplit_eq (l : List Char) (neg : Bool) (body r : List Char)
    (h : classSplit l = some (neg, body, r)) : ∃ pre, l = pre ++ ']' :: r := by
  cases l with
  | nil => simp [classSplit] at h
  | cons c rest =>
    simp only [classSplit] at h
    by_cases hc : c = '!'
    · rw [if_pos hc] at h
      cases hs : classBodyScan rest with
      | none => rw [hs] at h; simp at h
      | some p =>
        obtain ⟨pb, pr⟩ := p
        rw [hs] at h
        obtain ⟨-, -, rfl⟩ : neg = true ∧ pb = body ∧ pr = r := by simpa using h
        obtain ⟨pre, hpre⟩ := classBodyScan_eq rest pb pr hs
        exact ⟨c :: pre, by simp [hpre]⟩
    · rw [if_neg hc] at h
      cases hs : classBodyScan (c :: rest) with
      | none => rw [hs] at h; simp at h
      | some p =>
        obtain ⟨pb, pr⟩ := p
        rw [hs] at h
        obtain ⟨-, -, rfl⟩ : neg = false ∧ pb = body ∧ pr = r := by simpa using h
        exact classBodyScan_eq (c :: rest) pb pr hs

/-- Characters that the glob matcher treats as metacharacters at the top
level of a pattern. -/
def noMeta (p : List Char) : Prop :=
  ∀ c ∈ p, c ≠ '*' ∧ c ≠ '?' ∧ c ≠ '['

instance (p : List Char) : Decidable (noMeta p) := by
  unfold noMeta; infer_instance

/-- A metacharacter-free pattern matches itself, given enough fuel. -/
theorem globMatchF_self (p : List Char) (hm : noMeta p) :
    ∀ f, p.length < f → globMatchF f p p = true := by
  induction p with
  | nil =>
    intro f hf
    match f, hf with
    | g + 1, _ => simp [globMatchF]
  | cons c ps ih =>
    intro f hf
    match f, hf with
    | g + 1, hf =>
      obtain ⟨h1, h2, h3⟩ := hm c (List.mem_cons_self c ps)
      simp only [globMatchF]
      rw [if_neg h1, if_neg h2, if_neg h3]
      simp only [beq_self_eq_true, Bool.true_and]
      exact ih (fun x hx => hm x (List.mem_cons_of_mem c hx)) g (by
        simp only [List.length_cons] at hf; omega)

/-- A star followed by a metacharacter-free tail matches any text ending
in that tail, given enough fuel: the star absorbs the prefix. -/
theorem globMatchF_star_tail (tail : List Char) (hm : noMeta tail) :
    ∀ (q : List Char) (f : Nat), q.length + tail.length + 1 < f →
      globMatchF f ('*' :: tail) (q ++ tail) = true := by
  intro q
  induction q with
  | nil =>
    intro f hf
    match f, hf with
    | g + 1, hf =>
      simp only [globMatchF, List.nil_append, if_true]
      have hself : globMatchF g tail tail = true :=
        globMatchF_self tail hm g (by simp only [List.length_nil] at hf; omega)
      rw [hself]
      simp
  | cons c q2 ih =>
    intro f hf
    match f, hf with
    | g + 1, hf =>
      simp only [globMatchF, List.cons_append, if_true]
      have hstep : globMatchF g ('*' :: tail) (q2 ++ tail) = true := by
        apply ih
        simp only [List.length_cons] at hf
        omega
      rw [hstep]
      simp

/-- A pattern whose last character is a slash only matches texts that
contain a slash: the closing slash of a directory pattern is matched
literally (a closed character class ends with a bracket, and an unclosed
one makes the bracket literal). -/
theorem globMatchF_trailing_slash :
    ∀ (f : Nat) (p s : List Char), globMatchF f p s = true →
      p.getLast? = some '/' → '/' ∈ s := by
  intro f
  induction f with
  | zero => intro p s h _; simp [globMatchF] at h
  | succ g ih =>
    intro p s h hlast
    match p with
    | [] => simp at hlast
    | c :: ps =>
      by_cases h1 : c = '*'
      · simp only [globMatchF] at h
        rw [if_pos h1] at h
        rw [Bool.or_eq_true] at h
        rcases h with h | h
        · match ps, hlast with
          | [], hlast => simp [h1] at hlast
          | b :: ps2, hlast =>
            rw [List.getLast?_cons_cons] at hlast
            exact ih (b :: ps2) s h hlast
        · match s, h with
          | x :: s2, h =>
            exact List.mem_cons_of_mem x (ih (c :: ps) s2 h hlast)
      · by_cases h2 : c = '?'
        · simp only [globMatchF] at h
          rw [if_neg h1, if_pos h2] at h
          match s, h with
          | x :: s2, h =>
            match ps, hlast with
            | [], hlast => simp [h2] at hlast
            | b :: ps2, hlast =>
              rw [List.getLast?_cons_cons] at hlast
              exact List.mem_cons_of_mem x (ih (b :: ps2) s2 h hlast)
        · by_cases h3 : c = '['
          · simp only [globMatchF] at h
            rw [if_neg h1, if_neg h2, if_pos h3] at h
            cases hs : classSplit ps with
            | none =>
              rw [hs] at h
              match s, h with
              | x :: s2, h =>
                rw [Bool.and_eq_true] at h
                have h4 := h.2
                match ps, hlast with
                | [], hlast => simp [h3] at hlast
                | b :: ps2, hlast =>
                  rw [List.getLast?_cons_cons] at hlast
                  exact List.mem_cons_of_mem x (ih (b :: ps2) s2 h4 hlast)
            | some t =>
              obtain ⟨neg, body, rest⟩ := t
              rw [hs] at h
              match s, h with
              | x :: s2, h =>
                rw [Bool.and_eq_true] at h
                have h4 := h.2
                obtain ⟨pre, hpre⟩ := classSplit_eq ps neg body rest hs
                have hrest : rest.getLast? = some '/' := by
                  match rest with
                  | [] =>
                    rw [hpre] at hlast
                    rw [show (c :: (pre ++ [']'])).getLast? = some ']' by
                      simpa using List.getLast?_concat (c :: pre)] at hlast
                    simp at hlast
                  | y :: rest2 =>
                    rw [hpre] at hlast
                    rw [show c :: (pre ++ ']' :: y :: rest2) =
                        (c :: pre ++ [']']) ++ y :: rest2 by simp,
                      List.getLast?_append] at hlast
                    cases hy : (y :: rest2).getLast? with
                    | none => simp at hy
                    | some z =>
                      rw [hy, show (some z).or ((c :: pre ++ [']']).getLast?) =
                        some z from by simp [Option.or]] at hlast
                      exact hlast
                exact List.mem_cons_of_mem x (ih rest s2 h4 hrest)
          · simp only [globMatchF] at h
            rw [if_neg h1, if_neg h2, if_neg h3] at h
            match s, h with
            | x :: s2, h =>
              rw [Bool.and_eq_true] at h
              obtain ⟨hxc, h4⟩ := h
              match ps, hlast with
              | [], hlast =>
                have hc : c = '/' := by simpa using hlast
                have hx : x = '/' := (eq_of_beq hxc).trans hc
                exact hx ▸ List.mem_cons_self x s2
              | b :: ps2, hlast =>
                rw [List.getLast?_cons_cons] at hlast
                exact List.mem_cons_of_mem x (ih (b :: ps2) s2 h4 hlast)

/-- The basename of a path never contains a slash. -/
theorem basename_no_slash (s : List Char) : '/' ∉ basename s := by
  intro h
  rw [basename, List.mem_reverse] at h
  exact absurd (List.mem_takeWhile_imp h) (by simp)

/-! ### Claims -/

/-- Claim C1 (counterexample): the pattern set containing only the
directory-style pattern with directory part left-bracket a right-bracket
does not ignore the path that is literally that directory part, because
the pattern is matched as a glob, not literally. -/
theorem matcher_dir_counterexample :
    should_ignore "[a]".data ["[a]/".data] = false := by decide

/-- A metacharacter-free directory part stays metacharacter-free when a
slash is appended. -/
theorem noMeta_append_slash (d : List Char) (hm : noMeta d) :
    noMeta (d ++ ['/']) := by
  intro c hc
  rcases List.mem_append.mp hc with hc | hc
  · exact hm c hc
  · simp only [List.mem_singleton] at hc
    subst hc
    exact ⟨by decide, by decide, by decide⟩

/-- Claim C1 (amended): for a directory-style pattern whose directory
part is free of glob metacharacters, every path whose separator-normalized
relative form is exactly that directory part, or ends with it as a final
segment, is ignored. -/
theorem matcher_dir_segment (S : List (List Char)) (d P : List Char)
    (hmem : (d ++ ['/']) ∈ S) (hm : noMeta d)
    (hP : normalize P = d ∨ ∃ q, normalize P = q ++ '/' :: d) :
    should_ignore P S = true := by
  simp only [should_ignore]
  rw [List.any_eq_true]
  refine ⟨d ++ ['/'], hmem, ?_⟩
  rw [if_pos (List.getLast?_concat d)]
  rcases hP with h | ⟨q, h⟩
  · rw [h]
    have hself : fnmatchL (d ++ ['/']) (d ++ ['/']) = true :=
      globMatchF_self (d ++ ['/']) (noMeta_append_slash d hm) _ (by omega)
    rw [hself]
    simp
  · rw [h]
    have htail : noMeta ('/' :: (d ++ ['/'])) := by
      intro c hc
      rcases List.mem_cons.mp hc with rfl | hc
      · exact ⟨by decide, by decide, by decide⟩
      · exact noMeta_append_slash d hm c hc
    have hstar : fnmatchL ((q ++ '/' :: d) ++ ['/']) ('*' :: '/' :: (d ++ ['/'])) = true := by
      show globMatchF _ ('*' :: '/' :: (d ++ ['/'])) ((q ++ '/' :: d) ++ ['/']) = true
      rw [show (q ++ '/' :: d) ++ ['/'] = q ++ ('/' :: (d ++ ['/'])) by simp]
      apply globMatchF_star_tail ('/' :: (d ++ ['/'])) htail q
      simp only [List.length_cons, List.length_append, List.length_nil]
      omega
    rw [hstar]
    simp

/-- Witness for C1 (amended) at pattern `build/` and path `x/build`: a
file literally named `build` one directory down is ignored. -/
theorem matcher_dir_segment_witness :
    should_ignore "x/build".data ["build/".data] = true :=
  matcher_dir_segment ["build/".data] "build".data "x/build".data
    (by decide) (by decide) (Or.inr ⟨"x".data, by decide⟩)

/-- Claim C2: whenever the basename of a path matches any pattern of the
set as a plain glob, the path is ignored — for patterns ending with the
separator this premise can never hold (a basename has no slash and such
a pattern only matches texts containing one), and for every other
pattern the matcher tests the basename directly. -/
theorem matcher_basename_fallback (P : List Char) (S : List (List Char))
    (pat : List Char) (hmem : pat ∈ S)
    (hmatch : fnmatchL (basename (normalize P)) pat = true) :
    should_ignore P S = true := by
  simp only [should_ignore]
  rw [List.any_eq_true]
  refine ⟨pat, hmem, ?_⟩
  by_cases hdir : pat.getLast? = some '/'
  · exact absurd (globMatchF_trailing_slash _ pat _ hmatch hdir)
      (basename_no_slash (normalize P))
  · rw [if_neg hdir, hmatch]
    simp

/-- Witness for C2 at pattern `*.txt` and path `docs/notes.txt`. -/
theorem matcher_basename_fallback_witness :
    should_ignore "docs/notes.txt".data ["*.txt".data] = true :=
  matcher_basename_fallback "docs/notes.txt".data ["*.txt".data]
    "*.txt".data (by decide) (by decide)

/-- Claim C3: on the end-to-end scenario tree with pattern `*.md`, the
report lists client = 1 file and 10 lines, server = 1 file and 20 lines,
other = 0 files, and the overall summary totals 2 files and 30 lines. -/
theorem end_to_end_report :
    runMain (some "*.md\n".data) tree3 =
      { clientFiles := [("client/app.ts".data, 10)],
        serverFiles := [("server/main.go".data, 20)],
        otherFiles := [],
        clientCount := 1, serverCount := 1, otherCount := 0,
        clientLines := 10, serverLines := 20, otherLines := 0,
        totalFiles := 2, totalLines := 30 } := by decide

/-- Claim C7: `count_lines` returns 1 on a file holding exactly one line
without a trailing newline, 0 on an empty file, and 0 on a nonexistent
or unreadable path (failure is absorbed, never propagated). -/
theorem count_lines_spec :
    (∀ c, c ≠ [] → '\n' ∉ c → count_lines (some c) = 1) ∧
    count_lines (some []) = 0 ∧ count_lines none = 0 := by
  refine ⟨fun c hne hn => ?_, rfl, rfl⟩
  simp [count_lines, fileLines, fileLinesAux_no_newline c [] hn hne]

/-- Witness for C7 at the one-character file. -/
theorem count_lines_spec_witness :
    count_lines (some ['a']) = 1 :=
  count_lines_spec.1 ['a'] (by decide) (by decide)

/-- Claim C8: the classifier sends `client/foo.go` to client,
`Server/Foo.TS` to server (case-insensitively) and `lib/foo.py` to
other, and is total: every path lands in one of the three buckets. -/
theorem categorize_file_spec :
    categorize_file "client/foo.go".data = "client" ∧
    categorize_file "Server/Foo.TS".data = "server" ∧
    categorize_file "lib/foo.py".data = "other" ∧
    ∀ p, categorize_file p = "client" ∨ categorize_file p = "server" ∨
      categorize_file p = "other" := by
  refine ⟨by decide, by decide, by decide, fun p => ?_⟩
  simp only [categorize_file]
  split
  · exact Or.inl rfl
  · split
    · exact Or.inr (Or.inl rfl)
    · exact Or.inr (Or.inr rfl)

/-- Claim C9: an absent ignore file yields no user patterns; the loaded
patterns are exactly the stripped, non-empty, non-comment lines in file
order (shown on a representative file, and every loaded pattern is
non-empty and does not start with a hash); and the eight fixed
housekeeping patterns are appended unconditionally after the user
patterns, without replacing any of them. -/
theorem pattern_load_spec :
    parse_gitignore none = [] ∧
    mainPatterns none = fixedPatterns ∧
    fixedPatterns.length = 8 ∧
    (∀ g, mainPatterns g = parse_gitignore g ++ fixedPatterns) ∧
    (∀ g l, l ∈ parse_gitignore g → l ≠ [] ∧ l.head? ≠ some '#') ∧
    parse_gitignore (some "# comment\n\n  *.md  \nbuild/\n".data) =
      ["*.md".data, "build/".data] := by
  refine ⟨rfl, rfl, rfl, fun g => rfl, fun g l hl => ?_, by decide⟩
  match g with
  | none => simp [parse_gitignore] at hl
  | some content =>
    simp only [parse_gitignore, List.mem_filter, Bool.and_eq_true, decide_eq_true_eq] at hl
    exact hl.2

/-- Witness for C9 at the representative ignore file. -/
theorem pattern_load_spec_witness :
    "*.md".data ≠ [] ∧ "*.md".data.head? ≠ some '#' :=
  pattern_load_spec.2.2.2.2.1 (some "# comment\n\n  *.md  \nbuild/\n".data)
    "*.md".data (by decide)

/-- Well-formed trees: entry names never contain a path separator (the
filesystem guarantees this for the names `os.walk` reports). -/
inductive WfTree : FSTree → Prop where
  | mk : ∀ (dirs : List (List Char × FSTree)) (files : List (List Char × Option (List Char))),
      (∀ d ∈ dirs, '/' ∉ d.1) →
      (∀ d ∈ dirs, WfTree d.2) →
      (∀ fe ∈ files, '/' ∉ fe.1) →
      WfTree (.mk dirs files)

/-- Membership in a merged triple comes from one of the two sides. -/
theorem memT_mergeT (p : List Char) (n : Nat) (a b : Triple)
    (hm : memT p n (mergeT a b)) : memT p n a ∨ memT p n b := by
  simp only [memT, mergeT, List.mem_append] at hm ⊢
  tauto

/-- Membership in a merge-fold over a list comes from one element. -/
theorem memT_foldr (F : List Char × FSTree → Triple)
    (l : List (List Char × FSTree)) (p : List Char) (n : Nat)
    (hm : memT p n (l.foldr (fun d acc => mergeT (F d) acc) ⟨[], [], []⟩)) :
    ∃ d ∈ l, memT p n (F d) := by
  induction l with
  | nil => simp [memT] at hm
  | cons d ds ih =>
    rcases memT_mergeT p n (F d) _ hm with h | h
    · exact ⟨d, List.mem_cons_self d ds, h⟩
    · obtain ⟨e, he, hh⟩ := ih h
      exact ⟨e, List.mem_cons_of_mem d he, hh⟩

/-- Every record the per-directory file loop produces comes from one of
the files of that directory, carries its joined relative path, and has a
positive line count. -/
theorem processFiles_mem (pats : List (List Char)) (base : List Char) :
    ∀ (files : List (List Char × Option (List Char))) (p : List Char) (n : Nat),
      memT p n (processFiles pats base files) →
      (∃ fe ∈ files, p = joinRel base fe.1) ∧ 1 ≤ n := by
  intro files
  induction files with
  | nil =>
    intro p n hm
    simp [processFiles, memT] at hm
  | cons fe rest ih =>
    intro p n hm
    obtain ⟨name, content⟩ := fe
    simp only [processFiles] at hm
    by_cases h1 : (should_ignore (joinRel base name) pats ||
        !is_text_file ('.' :: '/' :: joinRel base name)) = true
    · rw [if_pos h1] at hm
      obtain ⟨⟨e, he, hp⟩, hn⟩ := ih p n hm
      exact ⟨⟨e, List.mem_cons_of_mem _ he, hp⟩, hn⟩
    · rw [if_neg h1] at hm
      by_cases h2 : count_lines content > 0
      · rw [if_pos h2] at hm
        have hcons : (p, n) = (joinRel base name, count_lines content) ∨
            memT p n (processFiles pats base rest) := by
          split at hm
          · simp only [memT, List.mem_cons] at hm
            rcases hm with (hm | hm) | hm | hm
            · exact Or.inl hm
            · exact Or.inr (Or.inl hm)
            · exact Or.inr (Or.inr (Or.inl hm))
            · exact Or.inr (Or.inr (Or.inr hm))
          · split at hm
            · simp only [memT, List.mem_cons] at hm
              rcases hm with hm | (hm | hm) | hm
              · exact Or.inr (Or.inl hm)
              · exact Or.inl hm
              · exact Or.inr (Or.inr (Or.inl hm))
              · exact Or.inr (Or.inr (Or.inr hm))
            · simp only [memT, List.mem_cons] at hm
              rcases hm with hm | hm | (hm | hm)
              · exact Or.inr (Or.inl hm)
              · exact Or.inr (Or.inr (Or.inl hm))
              · exact Or.inl hm
              · exact Or.inr (Or.inr (Or.inr hm))
        rcases hcons with hm2 | hm2
        · rw [Prod.mk.injEq] at hm2
          obtain ⟨rfl, rfl⟩ := hm2
          exact ⟨⟨(name, content), List.mem_cons_self _ _, rfl⟩, h2⟩
        · obtain ⟨⟨e, he, hp⟩, hn⟩ := ih p n hm2
          exact ⟨⟨e, List.mem_cons_of_mem _ he, hp⟩, hn⟩
      · rw [if_neg h2] at hm
        obtain ⟨⟨e, he, hp⟩, hn⟩ := ih p n hm
        exact ⟨⟨e, List.mem_cons_of_mem _ he, hp⟩, hn⟩

/-- Splitting a joined path at a slash lands either exactly on the join
point or inside the base, provided the name holds no slash. -/
theorem append_slash_split (base name : List Char) (hn : '/' ∉ name) :
    ∀ (a b : List Char), base ++ '/' :: name = a ++ '/' :: b →
      a = base ∨ ∃ q, base = a ++ '/' :: q := by
  induction base with
  | nil =>
    intro a b h
    match a, h with
    | [], h => exact Or.inl rfl
    | c :: a2, h =>
      rw [List.nil_append, List.cons_append] at h
      injection h with hc h2
      rw [h2] at hn
      exact absurd (List.mem_append_right a2 (List.mem_cons_self '/' b)) hn
  | cons x base2 ih =>
    intro a b h
    match a, h with
    | [], h =>
      rw [List.cons_append, List.nil_append] at h
      injection h with hx h2
      exact Or.inr ⟨base2, by rw [hx, List.nil_append]⟩
    | c :: a2, h =>
      rw [List.cons_append, List.cons_append] at h
      injection h with hx h2
      rcases ih a2 b h2 with rfl | ⟨q, hq⟩
      · exact Or.inl (by rw [hx])
      · exact Or.inr ⟨q, by rw [hx, hq, List.cons_append]⟩

/-- Internal induction for C5: along the walk, if every slash-prefix of
the base is unignored and so is the base itself, then every slash-prefix
of any reported path is unignored. -/
theorem walkF_ancestors (pats : List (List Char)) :
    ∀ (fuel : Nat) (base : List Char) (t : FSTree), WfTree t →
      (∀ a b, base = a ++ '/' :: b → should_ignore a pats = false) →
      (base = [] ∨ should_ignore base pats = false) →
      ∀ p n, memT p n (walkF pats fuel base t) →
      ∀ a b, p = a ++ '/' :: b → should_ignore a pats = false := by
  intro fuel
  induction fuel with
  | zero =>
    intro base t _ _ _ p n hm
    simp [walkF, memT] at hm
  | succ g ih =>
    intro base t hwf hanc hself p n hm a b hab
    cases t with
    | mk dirs files =>
      cases hwf with
      | mk _ _ hnames hsubs hfiles =>
        simp only [walkF] at hm
        rcases memT_mergeT p n _ _ hm with hm | hm
        · obtain ⟨⟨fe, hfe, hp⟩, -⟩ := processFiles_mem pats base files p n hm
          have hname : '/' ∉ fe.1 := hfiles fe hfe
          subst hp
          rw [joinRel] at hab
          by_cases hb : base.isEmpty
          · rw [if_pos hb] at hab
            rw [hab] at hname
            exact absurd (List.mem_append_right a (List.mem_cons_self '/' b)) hname
          · rw [if_neg hb] at hab
            rcases append_slash_split base fe.1 hname a b hab with rfl | ⟨q, hq⟩
            · rcases hself with rfl | hs
              · simp at hb
              · exact hs
            · exact hanc a q hq
        · obtain ⟨d, hd, hm⟩ := memT_foldr _ _ p n hm
          have hdmem := List.mem_filter.mp hd
          have hdin : d ∈ dirs := hdmem.1
          have hdkeep : should_ignore (joinRel base d.1) pats = false := by
            simpa using hdmem.2
          have hdname : '/' ∉ d.1 := hnames d hdin
          have hwfd : WfTree d.2 := hsubs d hdin
          refine ih (joinRel base d.1) d.2 hwfd ?_ (Or.inr hdkeep) p n hm a b hab
          intro a2 b2 h2
          rw [joinRel] at h2
          by_cases hb : base.isEmpty
          · rw [if_pos hb] at h2
            rw [h2] at hdname
            exact absurd (List.mem_append_right a2 (List.mem_cons_self '/' b2)) hdname
          · rw [if_neg hb] at h2
            rcases append_slash_split base d.1 hdname a2 b2 h2 with rfl | ⟨q, hq⟩
            · rcases hself with rfl | hs
              · simp at hb
              · exact hs
            · exact hanc a2 q hq

/-- The scenario tree is well formed: no entry name contains a slash. -/
theorem wf_tree3 : WfTree tree3 := by
  refine WfTree.mk _ _ (fun d hd => ?_) (fun d hd => ?_) (fun fe hfe => ?_)
  · fin_cases hd <;> decide
  · fin_cases hd <;>
      exact WfTree.mk _ _ (fun d2 hd2 => absurd hd2 (by simp))
        (fun d2 hd2 => absurd hd2 (by simp))
        (fun fe2 hfe2 => by fin_cases hfe2; decide)
  · fin_cases hfe; decide

/-- The records of an insertion are the new record plus the old ones. -/
theorem mem_insertDesc (z x : List Char × Nat) (l : List (List Char × Nat)) :
    z ∈ insertDesc x l ↔ z = x ∨ z ∈ l := by
  induction l with
  | nil => simp [insertDesc]
  | cons y ys ih =>
    rw [insertDesc]
    by_cases h : x.2 < y.2
    · rw [if_pos h]
      simp only [List.mem_cons, ih]
      tauto
    · rw [if_neg h]
      simp only [List.mem_cons]

/-- Insertion preserves the non-increasing order on line counts. -/
theorem pairwise_insertDesc (x : List Char × Nat) (l : List (List Char × Nat))
    (h : l.Pairwise (fun a b => b.2 ≤ a.2)) :
    (insertDesc x l).Pairwise (fun a b => b.2 ≤ a.2) := by
  induction l with
  | nil => simp [insertDesc]
  | cons y ys ih =>
    rw [List.pairwise_cons] at h
    obtain ⟨hy, hys⟩ := h
    rw [insertDesc]
    by_cases hxy : x.2 < y.2
    · rw [if_pos hxy, List.pairwise_cons]
      refine ⟨fun z hz => ?_, ih hys⟩
      rcases (mem_insertDesc z x ys).mp hz with rfl | hz
      · omega
      · exact hy z hz
    · rw [if_neg hxy, List.pairwise_cons]
      refine ⟨fun z hz => ?_, List.pairwise_cons.mpr ⟨hy, hys⟩⟩
      rcases List.mem_cons.mp hz with rfl | hz
      · omega
      · have := hy z hz
        omega

/-- The sorted output is non-increasing on line counts. -/
theorem sortDesc_pairwise (l : List (List Char × Nat)) :
    (sortDesc l).Pairwise (fun a b => b.2 ≤ a.2) := by
  induction l with
  | nil => simp [sortDesc]
  | cons x xs ih => exact pairwise_insertDesc x (sortDesc xs) ih

/-- Filtering an insertion at the inserted count prepends the new
record; at any other count the insertion is invisible. -/
theorem filter_insertDesc (x : List Char × Nat) (l : List (List Char × Nat)) (n : Nat) :
    (insertDesc x l).filter (fun r => r.2 == n) =
      if x.2 = n then x :: l.filter (fun r => r.2 == n)
      else l.filter (fun r => r.2 == n) := by
  induction l with
  | nil => by_cases hx : x.2 = n <;> simp [insertDesc, hx]
  | cons y ys ih =>
    rw [insertDesc]
    by_cases hxy : x.2 < y.2
    · rw [if_pos hxy]
      by_cases hy : y.2 = n
      · have hxn : ¬(x.2 = n) := by omega
        simp [List.filter_cons, hy, hxn, ih]
      · simp [List.filter_cons, hy, ih]
    · rw [if_neg hxy]
      by_cases hx : x.2 = n <;> simp [List.filter_cons, hx]

/-- The stable sort leaves the relative order of equal counts intact:
filtering at any fixed count commutes with sorting. -/
theorem sortDesc_filter (l : List (List Char × Nat)) (n : Nat) :
    (sortDesc l).filter (fun r => r.2 == n) = l.filter (fun r => r.2 == n) := by
  induction l with
  | nil => rfl
  | cons x xs ih =>
    rw [sortDesc, filter_insertDesc, List.filter_cons]
    by_cases hx : x.2 = n <;> simp [hx, ih]

/-- Claim C4: the reporting sort is non-increasing by line count, and
among records with equal counts the original encounter order is
preserved (the records with any fixed count appear in the output exactly
as they appear in the input). -/
theorem sortDesc_sorted_stable :
    ∀ l : List (List Char × Nat),
      (sortDesc l).Pairwise (fun a b => b.2 ≤ a.2) ∧
      ∀ n, (sortDesc l).filter (fun r => r.2 == n) =
        l.filter (fun r => r.2 == n) :=
  fun l => ⟨sortDesc_pairwise l, fun n => sortDesc_filter l n⟩

/-- Lower-casing keeps every allow-list entry in the allow-list (the
list is lower-case except for the upper-case R entry, whose lower-case
form is also present). -/
theorem lower_mem_text_extensions :
    ∀ e ∈ text_extensions, lowerL e ∈ text_extensions := by decide

/-- Claim C10: the extension allow-list test is case-insensitive — any
path whose suffix agrees with an allow-list entry up to letter case is
accepted as a text file. -/
theorem is_text_file_case_insensitive (ext p : List Char)
    (hext : ext ∈ text_extensions)
    (hsuf : lowerL (pathSuffix (basename p)) = lowerL ext) :
    is_text_file p = true := by
  have hlow : lowerL ext ∈ text_extensions := lower_mem_text_extensions ext hext
  simp only [is_text_file]
  rw [hsuf]
  exact decide_eq_true hlow

/-- Witness for C10 at the upper-case suffix `.TS`. -/
theorem is_text_file_case_insensitive_witness :
    is_text_file "./dir/Main.TS".data = true :=
  is_text_file_case_insensitive ".ts".data "./dir/Main.TS".data
    (by decide) (by decide)

/-- Claim C5: pruning is pre-descent — the walk result never depends on
the contents of an ignored subdirectory (first conjunct: replacing an
ignored subtree by any other tree leaves the result unchanged), and in a
well-formed tree no reported record lies beneath an ignored directory
(second conjunct: every slash-prefix of a reported path is unignored). -/
theorem walker_pruning :
    (∀ (pats : List (List Char)) (fuel : Nat) (base name : List Char)
        (t1 t2 : FSTree) (ds : List (List Char × FSTree))
        (files : List (List Char × Option (List Char))),
        should_ignore (joinRel base name) pats = true →
        walkF pats fuel base (.mk ((name, t1) :: ds) files) =
          walkF pats fuel base (.mk ((name, t2) :: ds) files)) ∧
    (∀ (pats : List (List Char)) (t : FSTree), WfTree t →
        ∀ p n, memT p n (walkRoot pats t) →
        ∀ a b, p = a ++ '/' :: b → should_ignore a pats = false) := by
  constructor
  · intro pats fuel base name t1 t2 ds files hig
    cases fuel with
    | zero => rfl
    | succ g =>
      simp only [walkF, List.filter_cons, hig]
      rfl
  · intro pats t hwf p n hm a b hab
    refine walkF_ancestors pats (sizeT t) [] t hwf ?_ (Or.inl rfl) p n hm a b hab
    intro a2 b2 h2
    exact absurd h2 (by simp)

/-- Witness for C5: on the scenario tree with the single pattern
`node_modules/`, the reported record `client/app.ts` certifies that its
parent directory `client` is not ignored. -/
theorem walker_pruning_witness :
    should_ignore "client".data ["node_modules/".data] = false :=
  walker_pruning.2 ["node_modules/".data] tree3 wf_tree3
    "client/app.ts".data 10 (by decide) "client".data "app.ts".data (by decide)

/-- Claim C6: the walker never records a file with line count zero —
every record in any of the three category sequences, at any stage of the
walk (any fuel, base and subtree), has a count of at least one. -/
theorem walker_records_positive :
    ∀ (pats : List (List Char)) (fuel : Nat) (base : List Char) (t : FSTree)
      (p : List Char) (n : Nat), memT p n (walkF pats fuel base t) → 1 ≤ n := by
  intro pats fuel
  induction fuel with
  | zero =>
    intro base t p n hm
    simp [walkF, memT] at hm
  | succ g ih =>
    intro base t p n hm
    cases t with
    | mk dirs files =>
      simp only [walkF] at hm
      rcases memT_mergeT p n _ _ hm with hm | hm
      · exact (processFiles_mem pats base files p n hm).2
      · obtain ⟨d, _, hm⟩ := memT_foldr _ _ p n hm
        exact ih (joinRel base d.1) d.2 p n hm

/-- Witness for C6 at the scenario tree walked with no patterns. -/
theorem walker_records_positive_witness : 1 ≤ 20 :=
  walker_records_positive [] (sizeT tree3) [] tree3
    "server/main.go".data 20 (by decide)

end Atlas
